import Mathlib

/-!
Verification development for the `quadtree` program (src/quadtree.c).

The C program is embedded shallowly:
* machine doubles are modelled by exact rationals `ℚ`;
* the growable `points` array of a node is a `List double2`
  (`size` is the list length); the storage/capacity behaviour of
  `quadtree_add`'s chunked `realloc` is modelled separately by `PointStore`;
* the recursive `quadtree_refine`, which need not terminate on pathological
  inputs, is modelled with an explicit fuel parameter: `quadtree_refine fuel q`
  returns `some q'` when the C recursion tree has depth at most `fuel`, and
  `none` when `fuel` is exhausted, so "the C function terminates on `q`" is
  `∃ fuel, quadtree_refine fuel q = some q'`;
* `quadtree_apply_leaves` returns the list of visited leaves in visit order,
  abstracting the callback `f`.
-/

/-- Compile-time constants of the program (src/quadtree.c lines 10-13). -/
def WIDTH : ℕ := 20

/-- Grid height constant. -/
def HEIGHT : ℕ := 20

/-- Chunk size / sampling density constant `N`. -/
def N : ℕ := 10

/-- Refinement density threshold `THRESH` (a C double, value 1.0). -/
def THRESH : ℚ := 1

/-- A simple two-dimensional point (C struct `double2`). -/
structure double2 where
  x : ℚ
  y : ℚ
deriving DecidableEq

/-- The quadtree node struct: center `(x, y)`, extent `(w, h)`, the optional
pointer to a block of 4 children (`child`), and the node's point buffer
(`points`; the C `size` field is the length of this list). -/
inductive quadtree : Type where
  | mk (x y w h : ℚ) (child : Option (quadtree × quadtree × quadtree × quadtree))
       (points : List double2)

/-- Center x-coordinate. -/
def quadtree.x : quadtree → ℚ
  | .mk a _ _ _ _ _ => a

/-- Center y-coordinate. -/
def quadtree.y : quadtree → ℚ
  | .mk _ a _ _ _ _ => a

/-- Width. -/
def quadtree.w : quadtree → ℚ
  | .mk _ _ a _ _ _ => a

/-- Height. -/
def quadtree.h : quadtree → ℚ
  | .mk _ _ _ a _ _ => a

/-- The child pointer. -/
def quadtree.child : quadtree → Option (quadtree × quadtree × quadtree × quadtree)
  | .mk _ _ _ _ c _ => c

/-- The point buffer. -/
def quadtree.points : quadtree → List double2
  | .mk _ _ _ _ _ ps => ps

/-- The `size` field: number of stored points. -/
def quadtree.size (q : quadtree) : ℕ := q.points.length

/-- `quadtree_add` (lines 93-111): append a copy of the point to the node's
buffer and bump `size`.  (The `realloc` capacity bookkeeping is modelled by
`PointStore` below; it does not affect the stored sequence of points.) -/
def quadtree_add (q : quadtree) (p : double2) : quadtree :=
  .mk q.x q.y q.w q.h q.child (q.points ++ [p])

/-- A block of four children, mirroring the C array `q->child[0..3]`. -/
abbrev Quad : Type := quadtree × quadtree × quadtree × quadtree

/-- `cs[k]` for a child block (index `k ≥ 3` reads the last slot; all code
indices are `j*2+i < 4`). -/
def comp (cs : Quad) : ℕ → quadtree
  | 0 => cs.1
  | 1 => cs.2.1
  | 2 => cs.2.2.1
  | _ => cs.2.2.2

/-- Child initialisation (lines 134-140): child `(i,j)` is an empty leaf of
half extent centered at `(q.x + (2i-1)·0.25·q.w, q.y + (2j-1)·0.25·q.h)`. -/
def initChild (q : quadtree) (i j : ℕ) : quadtree :=
  .mk (q.x + (2 * (i : ℚ) - 1) * 0.25 * q.w)
      (q.y + (2 * (j : ℚ) - 1) * 0.25 * q.h)
      (0.5 * q.w) (0.5 * q.h) none []

/-- The freshly initialised child block, in storage order
`child[j*2+i]`: indices 0,1,2,3 are quadrants (0,0), (1,0), (0,1), (1,1). -/
def initChildren (q : quadtree) : Quad :=
  (initChild q 0 0, initChild q 1 0, initChild q 0 1, initChild q 1 1)

/-- Quadrant index of a point (lines 147-148): `i = p.x > q.x`,
`j = p.y > q.y`, combined as `j*2 + i`. -/
def quadIndex (q : quadtree) (p : double2) : ℕ :=
  (if q.y < p.y then 1 else 0) * 2 + (if q.x < p.x then 1 else 0)

/-- Add a point to slot `k` of a child block (slot `k ≥ 3` writes the last). -/
def addAt : Quad → ℕ → double2 → Quad
  | (c0, c1, c2, c3), 0, p => (quadtree_add c0 p, c1, c2, c3)
  | (c0, c1, c2, c3), 1, p => (c0, quadtree_add c1 p, c2, c3)
  | (c0, c1, c2, c3), 2, p => (c0, c1, quadtree_add c2 p, c3)
  | (c0, c1, c2, c3), _, p => (c0, c1, c2, quadtree_add c3 p)

/-- One iteration of the redistribution loop (lines 144-152): add point `p`
to `child[quadIndex q p]`. -/
def sortPoint (q : quadtree) (cs : Quad) (p : double2) : Quad :=
  addAt cs (quadIndex q p) p

/-- The whole redistribution loop: sort every buffered point of `q` into the
freshly initialised children. -/
def redistribute (q : quadtree) : Quad :=
  q.points.foldl (sortPoint q) (initChildren q)

/-- `quadtree_refine` (lines 114-163) with explicit recursion fuel.
If `size > THRESH*N*N` the node is subdivided: children are created and
initialised, the buffered points are redistributed, the node's own buffer is
freed (`points = []`), and each child is refined recursively; otherwise the
node is returned unchanged.  `none` means the recursion exceeded `fuel`
(in C: the call has not returned within that depth). -/
def quadtree_refine : ℕ → quadtree → Option quadtree
  | 0, q =>
      if THRESH * (N : ℚ) * (N : ℚ) < (q.size : ℚ) then none else some q
  | fuel + 1, q =>
      if THRESH * (N : ℚ) * (N : ℚ) < (q.size : ℚ) then
        let cs := redistribute q
        match quadtree_refine fuel cs.1, quadtree_refine fuel cs.2.1,
              quadtree_refine fuel cs.2.2.1, quadtree_refine fuel cs.2.2.2 with
        | some d0, some d1, some d2, some d3 =>
            some (.mk q.x q.y q.w q.h (some (d0, d1, d2, d3)) [])
        | _, _, _, _ => none
      else some q

/-- `quadtree_apply_leaves` (lines 166-179), with the visitor abstracted:
the list of leaves visited, in visit order (children in index order
0, 1, 2, 3). -/
def quadtree_apply_leaves : quadtree → List quadtree
  | .mk _ _ _ _ (some (c0, c1, c2, c3)) _ =>
      quadtree_apply_leaves c0 ++ quadtree_apply_leaves c1 ++
        quadtree_apply_leaves c2 ++ quadtree_apply_leaves c3
  | .mk x y w h none ps => [.mk x y w h none ps]

/-- `quadtree_add`'s storage behaviour (lines 93-105): the buffer together
with its allocated capacity.  The C code tracks the capacity implicitly:
`realloc` to `size + N` points is issued exactly when `size % N == 0`. -/
structure PointStore where
  points : List double2
  cap : ℕ
deriving DecidableEq

/-- The storage-level embedding of `quadtree_add`: grow capacity to
`size + N` when `size % N == 0` (the buffer is exactly full), then write the
point at index `size` and increment `size`. -/
def pstore_add (s : PointStore) (p : double2) : PointStore :=
  if s.points.length % N = 0 then
    ⟨s.points ++ [p], s.points.length + N⟩
  else
    ⟨s.points ++ [p], s.cap⟩

/-- The capacity invariant of a buffer built by `pstore_add` from the empty
buffer `⟨[], 0⟩` (`points = NULL`): capacity is `size` rounded up to the next
multiple of `N`. -/
def pstore_inv (s : PointStore) : Prop :=
  s.cap = N * ((s.points.length + (N - 1)) / N)

/-- One root of the driver's grid (lines 223-232): root `n` is a unit leaf
cell centered at `(n % WIDTH + 1, n / WIDTH + 1)`. -/
def grid_root (n : ℕ) : quadtree :=
  .mk ((n % WIDTH : ℕ) + 1) ((n / WIDTH : ℕ) + 1) 1 1 none []

/-- The half-open box of a node: `[x - w/2, x + w/2) × [y - h/2, y + h/2)`.
(Half-open so that the quadrants of a box literally partition it.) -/
def inBox (q : quadtree) (p : double2) : Prop :=
  q.x - q.w / 2 ≤ p.x ∧ p.x < q.x + q.w / 2 ∧
  q.y - q.h / 2 ≤ p.y ∧ p.y < q.y + q.h / 2

/-- Invariant A of the spec, read off the whole subtree: every node either
has no children (a leaf, holding its buffer) or has children and an empty
buffer. -/
def Exclusive : quadtree → Prop
  | .mk _ _ _ _ none _ => True
  | .mk _ _ _ _ (some (c0, c1, c2, c3)) ps =>
      ps = [] ∧ Exclusive c0 ∧ Exclusive c1 ∧ Exclusive c2 ∧ Exclusive c3

/-- Spec-side description of the traversal: the list of child-index paths of
the leaves of a tree, in the order `quadtree_apply_leaves` descends
(children 0, 1, 2, 3). -/
def leafPaths : quadtree → List (List ℕ)
  | .mk _ _ _ _ (some (c0, c1, c2, c3)) _ =>
      (leafPaths c0).map (0 :: ·) ++ (leafPaths c1).map (1 :: ·) ++
        (leafPaths c2).map (2 :: ·) ++ (leafPaths c3).map (3 :: ·)
  | .mk _ _ _ _ none _ => [[]]

/-- The subtree of a tree at a child-index path, when the path exists. -/
def subtreeAt : quadtree → List ℕ → Option quadtree
  | q, [] => some q
  | .mk _ _ _ _ (some (c0, c1, c2, c3)) _, k :: rest =>
      match k with
      | 0 => subtreeAt c0 rest
      | 1 => subtreeAt c1 rest
      | 2 => subtreeAt c2 rest
      | 3 => subtreeAt c3 rest
      | _ + 4 => none
  | .mk _ _ _ _ none _, _ :: _ => none

/-- Total number of points stored in a child block. -/
def totalSize (cs : Quad) : ℕ :=
  cs.1.size + cs.2.1.size + cs.2.2.1.size + cs.2.2.2.size

/-- The shape of a node: everything but its point buffer. -/
def shape (q : quadtree) : ℚ × ℚ × ℚ × ℚ × Option Quad :=
  (q.x, q.y, q.w, q.h, q.child)

/-- Append a whole list of points to a node's buffer. -/
def addMany (c : quadtree) (ps : List double2) : quadtree :=
  .mk c.x c.y c.w c.h c.child (c.points ++ ps)

/-- The sum of the point counts of the leaves of a subtree. -/
def leafSizeSum (q : quadtree) : ℕ :=
  ((quadtree_apply_leaves q).map quadtree.size).sum

/-- A leaf with 3 points, used to instantiate C1. -/
def qW1 : quadtree := .mk 1 1 1 1 none [⟨0.3, 0.4⟩, ⟨1.2, 0.7⟩, ⟨0.6, 1.4⟩]

/-- The coincident point of the pathological input of C2. -/
def pBad : double2 := ⟨0.25, 0.25⟩

/-- A leaf holding 101 bit-identical points: the pathological input of C2. -/
def qBad : quadtree := .mk 1 1 1 1 none (List.replicate 101 pBad)

/-- A unit leaf at center (1,1), used to instantiate C4 and C6. -/
def root11 : quadtree := .mk 1 1 1 1 none []

/-- A point exactly on the vertical center line of `root11` (tie on x). -/
def pC4 : double2 := ⟨1, 3/2⟩

/-- A leaf with one point, used to instantiate C5. -/
def qW5 : quadtree := .mk 2 2 1 1 none [⟨2.1, 1.9⟩]

/-- `root11` after 50 insertions (the below-threshold scenario of C6). -/
def q50 : quadtree := (List.replicate 50 (⟨0.75, 0.75⟩ : double2)).foldl quadtree_add root11

/-- A leaf with one point, used to instantiate C8. -/
def qW8 : quadtree := .mk 3 3 1 1 none [⟨2.9, 3.1⟩]

/-- A point in quadrant (0,0) of `qC3`. -/
def pA : double2 := ⟨3/4, 3/4⟩

/-- A point in quadrant (1,1) of `qC3`. -/
def pB : double2 := ⟨5/4, 5/4⟩

/-- A unit leaf holding 101 points (51 in quadrant (0,0), 50 in (1,1)):
a concrete above-threshold input whose refinement terminates. -/
def qC3 : quadtree := .mk 1 1 1 1 none (List.replicate 51 pA ++ List.replicate 50 pB)

/-- Child 0 of `qC3` after redistribution. -/
def cA : quadtree := addMany (initChild qC3 0 0) (List.replicate 51 pA)

/-- Child 1 of `qC3` after redistribution. -/
def cB : quadtree := initChild qC3 1 0

/-- Child 2 of `qC3` after redistribution. -/
def cC : quadtree := initChild qC3 0 1

/-- Child 3 of `qC3` after redistribution. -/
def cD : quadtree := addMany (initChild qC3 1 1) (List.replicate 50 pB)

/-- The result of refining `qC3`. -/
def qC3r : quadtree := .mk qC3.x qC3.y qC3.w qC3.h (some (cA, cB, cC, cD)) []

/-- The empty point store (`points = NULL`, no capacity). -/
def pstoreEmpty : PointStore := ⟨[], 0⟩

/-- A point store after three appends, used to instantiate C9. -/
def sW9 : PointStore :=
  pstore_add (pstore_add (pstore_add pstoreEmpty ⟨1, 2⟩) ⟨3, 4⟩) ⟨5, 6⟩

/-- The point appended in the C9 witness. -/
def pW9 : double2 := ⟨7, 8⟩

/-- Driver root column index (line 252): `i = point.x - 0.5`, the C
double-to-int conversion truncating toward zero; nonnegative after the
bounds check, hence the floor. -/
def drv_i (p : double2) : ℕ := (⌊p.x - 1/2⌋).toNat

/-- Driver root row index (line 253). -/
def drv_j (p : double2) : ℕ := (⌊p.y - 1/2⌋).toNat

/-- The point of the C10 witness. -/
def pW10 : double2 := ⟨37/10, 26/5⟩

@[simp] theorem quadtree.x_mk (a b c d e f) : (quadtree.mk a b c d e f).x = a := rfl
@[simp] theorem quadtree.y_mk (a b c d e f) : (quadtree.mk a b c d e f).y = b := rfl
@[simp] theorem quadtree.w_mk (a b c d e f) : (quadtree.mk a b c d e f).w = c := rfl
@[simp] theorem quadtree.h_mk (a b c d e f) : (quadtree.mk a b c d e f).h = d := rfl
@[simp] theorem quadtree.child_mk (a b c d e f) : (quadtree.mk a b c d e f).child = e := rfl
@[simp] theorem quadtree.points_mk (a b c d e f) : (quadtree.mk a b c d e f).points = f := rfl
@[simp] theorem quadtree.size_mk (a b c d e f) : (quadtree.mk a b c d e f).size = f.length := rfl

@[simp] theorem quadtree_add_x (q p) : (quadtree_add q p).x = q.x := rfl
@[simp] theorem quadtree_add_y (q p) : (quadtree_add q p).y = q.y := rfl
@[simp] theorem quadtree_add_w (q p) : (quadtree_add q p).w = q.w := rfl
@[simp] theorem quadtree_add_h (q p) : (quadtree_add q p).h = q.h := rfl
@[simp] theorem quadtree_add_child (q p) : (quadtree_add q p).child = q.child := rfl
@[simp] theorem quadtree_add_points (q p) : (quadtree_add q p).points = q.points ++ [p] := rfl
@[simp] theorem quadtree_add_size (q p) : (quadtree_add q p).size = q.size + 1 := by
  simp [quadtree_add, quadtree.size]

/-- Structural induction principle for `quadtree` (the nested `Option`/
product in the `child` field keeps the auto-generated recursor from being
directly usable). -/
theorem quadtree.my_ind (P : quadtree → Prop)
    (hleaf : ∀ x y w h ps, P (.mk x y w h none ps))
    (hnode : ∀ x y w h ps c0 c1 c2 c3, P c0 → P c1 → P c2 → P c3 →
      P (.mk x y w h (some (c0, c1, c2, c3)) ps)) :
    ∀ q, P q
  | .mk x y w h none ps => hleaf x y w h ps
  | .mk x y w h (some (c0, c1, c2, c3)) ps =>
      hnode x y w h ps c0 c1 c2 c3
        (quadtree.my_ind P hleaf hnode c0) (quadtree.my_ind P hleaf hnode c1)
        (quadtree.my_ind P hleaf hnode c2) (quadtree.my_ind P hleaf hnode c3)

/-- With the reference constants, the C condition `size > THRESH*N*N` is
`100 < size`. -/
theorem thresh_lt_iff (q : quadtree) :
    (THRESH * (N : ℚ) * (N : ℚ) < (q.size : ℚ)) ↔ 100 < q.size := by
  have : THRESH * (N : ℚ) * (N : ℚ) = (100 : ℕ) := by norm_num [THRESH, N]
  rw [this, Nat.cast_lt]

theorem quadtree_refine_stop {q : quadtree} (fuel : ℕ) (h : ¬ 100 < q.size) :
    quadtree_refine fuel q = some q := by
  cases fuel <;> simp [quadtree_refine, thresh_lt_iff, h]

theorem quadtree_refine_zero {q : quadtree} (h : 100 < q.size) :
    quadtree_refine 0 q = none := by
  simp [quadtree_refine, thresh_lt_iff, h]

theorem quadtree_refine_succ_eq {q : quadtree} {fuel : ℕ} {d0 d1 d2 d3 : quadtree}
    (h : 100 < q.size)
    (h0 : quadtree_refine fuel (redistribute q).1 = some d0)
    (h1 : quadtree_refine fuel (redistribute q).2.1 = some d1)
    (h2 : quadtree_refine fuel (redistribute q).2.2.1 = some d2)
    (h3 : quadtree_refine fuel (redistribute q).2.2.2 = some d3) :
    quadtree_refine (fuel + 1) q =
      some (.mk q.x q.y q.w q.h (some (d0, d1, d2, d3)) []) := by
  simp [quadtree_refine, thresh_lt_iff, h, h0, h1, h2, h3]

theorem quadtree_refine_succ_inv {q q' : quadtree} {fuel : ℕ}
    (h : 100 < q.size) (h' : quadtree_refine (fuel + 1) q = some q') :
    ∃ d0 d1 d2 d3,
      quadtree_refine fuel (redistribute q).1 = some d0 ∧
      quadtree_refine fuel (redistribute q).2.1 = some d1 ∧
      quadtree_refine fuel (redistribute q).2.2.1 = some d2 ∧
      quadtree_refine fuel (redistribute q).2.2.2 = some d3 ∧
      q' = .mk q.x q.y q.w q.h (some (d0, d1, d2, d3)) [] := by
  rw [quadtree_refine] at h'
  rw [if_pos ((thresh_lt_iff q).mpr h)] at h'
  rcases e0 : quadtree_refine fuel (redistribute q).1 with _ | d0 <;>
    rcases e1 : quadtree_refine fuel (redistribute q).2.1 with _ | d1 <;>
    rcases e2 : quadtree_refine fuel (redistribute q).2.2.1 with _ | d2 <;>
    rcases e3 : quadtree_refine fuel (redistribute q).2.2.2 with _ | d3 <;>
    simp only [e0, e1, e2, e3] at h' <;>
    simp_all

theorem comp_addAt_self (cs : Quad) (k : ℕ) (p : double2) :
    comp (addAt cs k p) k = quadtree_add (comp cs k) p := by
  obtain ⟨c0, c1, c2, c3⟩ := cs
  rcases k with _ | _ | _ | k <;> rfl

theorem comp_addAt_other (cs : Quad) {k k' : ℕ} (p : double2)
    (hk : k < 4) (hk' : k' < 4) (hne : k' ≠ k) :
    comp (addAt cs k p) k' = comp cs k' := by
  obtain ⟨c0, c1, c2, c3⟩ := cs
  rcases k with _ | _ | _ | k <;> rcases k' with _ | _ | _ | k' <;>
    first
      | rfl
      | omega

theorem shape_comp_addAt (cs : Quad) (k k' : ℕ) (p : double2) :
    shape (comp (addAt cs k p) k') = shape (comp cs k') := by
  obtain ⟨c0, c1, c2, c3⟩ := cs
  rcases k with _ | _ | _ | k <;> rcases k' with _ | _ | _ | k' <;> rfl

theorem totalSize_addAt (cs : Quad) (k : ℕ) (p : double2) :
    totalSize (addAt cs k p) = totalSize cs + 1 := by
  obtain ⟨c0, c1, c2, c3⟩ := cs
  rcases k with _ | _ | _ | k <;>
    simp [addAt, totalSize] <;> omega

theorem totalSize_foldl (q : quadtree) (ps : List double2) (cs : Quad) :
    totalSize (ps.foldl (sortPoint q) cs) = totalSize cs + ps.length := by
  induction ps generalizing cs with
  | nil => simp
  | cons p ps ih =>
      rw [List.foldl_cons, ih, List.length_cons, sortPoint, totalSize_addAt]
      omega

theorem totalSize_redistribute (q : quadtree) :
    totalSize (redistribute q) = q.size := by
  rw [redistribute, totalSize_foldl]
  simp [totalSize, initChildren, initChild, quadtree.size]

theorem shape_comp_foldl (q : quadtree) (ps : List double2) (cs : Quad) (k : ℕ) :
    shape (comp (ps.foldl (sortPoint q) cs) k) = shape (comp cs k) := by
  induction ps generalizing cs with
  | nil => simp
  | cons p ps ih =>
      rw [List.foldl_cons, ih, sortPoint, shape_comp_addAt]

theorem shape_comp_redistribute (q : quadtree) (k : ℕ) :
    shape (comp (redistribute q) k) = shape (comp (initChildren q) k) := by
  rw [redistribute, shape_comp_foldl]

theorem child_comp_redistribute (q : quadtree) (k : ℕ) :
    (comp (redistribute q) k).child = none := by
  have h : (comp (redistribute q) k).child = (comp (initChildren q) k).child :=
    congrArg (fun t => t.2.2.2.2) (shape_comp_redistribute q k)
  rw [h]
  rcases k with _ | _ | _ | k <;> rfl

theorem refine_geom {fuel : ℕ} {q q' : quadtree}
    (h : quadtree_refine fuel q = some q') :
    q'.x = q.x ∧ q'.y = q.y ∧ q'.w = q.w ∧ q'.h = q.h := by
  by_cases hs : 100 < q.size
  · cases fuel with
    | zero => rw [quadtree_refine_zero hs] at h; cases h
    | succ fuel =>
        obtain ⟨d0, d1, d2, d3, -, -, -, -, rfl⟩ := quadtree_refine_succ_inv hs h
        simp
  · rw [quadtree_refine_stop fuel hs] at h
    cases h
    exact ⟨rfl, rfl, rfl, rfl⟩

theorem quadIndex_lt_four (q : quadtree) (p : double2) : quadIndex q p < 4 := by
  unfold quadIndex
  split <;> split <;> norm_num

theorem quadtree.eta (q : quadtree) :
    quadtree.mk q.x q.y q.w q.h q.child q.points = q := by
  cases q; rfl

theorem addMany_nil (c : quadtree) : addMany c [] = c := by
  simp [addMany, quadtree.eta]

theorem addMany_add (c : quadtree) (p : double2) (ps : List double2) :
    addMany (quadtree_add c p) ps = addMany c (p :: ps) := by
  simp [addMany, quadtree_add]

/-- Redistributing a run of identical points: they all land in the single
child `quadIndex q p`, appended in order; the other children are untouched. -/
theorem comp_foldl_allsame (q : quadtree) (p : double2) (ps : List double2)
    (cs : Quad) (hps : ∀ x ∈ ps, x = p) :
    (∀ k < 4, k ≠ quadIndex q p → comp (ps.foldl (sortPoint q) cs) k = comp cs k) ∧
      comp (ps.foldl (sortPoint q) cs) (quadIndex q p) =
        addMany (comp cs (quadIndex q p)) ps := by
  induction ps generalizing cs with
  | nil => exact ⟨fun _ _ _ => rfl, by rw [List.foldl_nil, addMany_nil]⟩
  | cons p' ps ih =>
      have hp' : p' = p := hps p' (by simp)
      subst hp'
      have htail : ∀ x ∈ ps, x = p' := fun x hx => hps x (by simp [hx])
      rw [List.foldl_cons]
      obtain ⟨hother, hself⟩ := ih (sortPoint q cs p') htail
      refine ⟨fun k hk hkne => ?_, ?_⟩
      · rw [hother k hk hkne, sortPoint,
          comp_addAt_other cs p' (quadIndex_lt_four q p') hk hkne]
      · rw [hself, sortPoint, comp_addAt_self, addMany_add]

theorem refine_succ_none_of_comp {q : quadtree} {fuel : ℕ} (h : 100 < q.size)
    {k : ℕ} (hk : k < 4)
    (hnone : quadtree_refine fuel (comp (redistribute q) k) = none) :
    quadtree_refine (fuel + 1) q = none := by
  rw [quadtree_refine, if_pos ((thresh_lt_iff q).mpr h)]
  interval_cases k <;>
  · rcases e0 : quadtree_refine fuel (redistribute q).1 with _ | d0 <;>
      rcases e1 : quadtree_refine fuel (redistribute q).2.1 with _ | d1 <;>
      rcases e2 : quadtree_refine fuel (redistribute q).2.2.1 with _ | d2 <;>
      rcases e3 : quadtree_refine fuel (redistribute q).2.2.2 with _ | d3 <;>
      simp_all [comp]

/-- On a node whose buffered points are all identical and above threshold,
refinement runs out of any amount of fuel: every subdivision hands the whole
buffer to one child of the same size. -/
theorem refine_allsame_none (fuel : ℕ) (q : quadtree) (p : double2)
    (hs : 100 < q.size) (hall : ∀ x ∈ q.points, x = p) :
    quadtree_refine fuel q = none := by
  induction fuel generalizing q with
  | zero => exact quadtree_refine_zero hs
  | succ fuel ih =>
      have hred := comp_foldl_allsame q p q.points (initChildren q) hall
      have hcomp : comp (redistribute q) (quadIndex q p) =
          addMany (comp (initChildren q) (quadIndex q p)) q.points := hred.2
      have hinit : (comp (initChildren q) (quadIndex q p)).points = [] := by
        have h4 := quadIndex_lt_four q p
        interval_cases h : quadIndex q p <;> rfl
      have hpoints : (comp (redistribute q) (quadIndex q p)).points = q.points := by
        rw [hcomp]; simp [addMany, hinit]
      have hsize : 100 < (comp (redistribute q) (quadIndex q p)).size := by
        rw [quadtree.size, hpoints]; exact hs
      exact refine_succ_none_of_comp hs (quadIndex_lt_four q p)
        (ih _ hsize (by rw [hpoints]; exact hall))

@[simp] theorem comp_zero (cs : Quad) : comp cs 0 = cs.1 := rfl
@[simp] theorem comp_one (cs : Quad) : comp cs 1 = cs.2.1 := rfl
@[simp] theorem comp_two (cs : Quad) : comp cs 2 = cs.2.2.1 := rfl
@[simp] theorem comp_three (cs : Quad) : comp cs 3 = cs.2.2.2 := rfl

@[simp] theorem apply_leaves_leaf (x y w h ps) :
    quadtree_apply_leaves (.mk x y w h none ps) = [.mk x y w h none ps] := rfl

@[simp] theorem apply_leaves_node (x y w h ps c0 c1 c2 c3) :
    quadtree_apply_leaves (.mk x y w h (some (c0, c1, c2, c3)) ps) =
      quadtree_apply_leaves c0 ++ quadtree_apply_leaves c1 ++
        quadtree_apply_leaves c2 ++ quadtree_apply_leaves c3 := rfl

theorem apply_leaves_of_child_none {q : quadtree} (hc : q.child = none) :
    quadtree_apply_leaves q = [q] := by
  rcases q with ⟨x, y, w, h, c, ps⟩
  rw [quadtree.child_mk] at hc
  subst hc
  rfl

theorem leafSizeSum_of_child_none {q : quadtree} (hc : q.child = none) :
    leafSizeSum q = q.size := by
  rw [leafSizeSum, apply_leaves_of_child_none hc]
  simp

theorem leafSizeSum_node (x y w h ps c0 c1 c2 c3) :
    leafSizeSum (.mk x y w h (some (c0, c1, c2, c3)) ps) =
      leafSizeSum c0 + leafSizeSum c1 + leafSizeSum c2 + leafSizeSum c3 := by
  simp [leafSizeSum]
  omega

/-- Partition conservation, inductive core: a terminating refinement of a
leaf node neither loses nor duplicates points. -/
theorem refine_conserve (fuel : ℕ) :
    ∀ q q' : quadtree, q.child = none →
      quadtree_refine fuel q = some q' → leafSizeSum q' = q.size := by
  induction fuel with
  | zero =>
      intro q q' hc h
      have hs : ¬ 100 < q.size := by
        intro hs
        rw [quadtree_refine_zero hs] at h
        cases h
      rw [quadtree_refine_stop 0 hs] at h
      injection h with h
      subst h
      exact leafSizeSum_of_child_none hc
  | succ fuel ih =>
      intro q q' hc h
      by_cases hs : 100 < q.size
      · obtain ⟨d0, d1, d2, d3, h0, h1, h2, h3, rfl⟩ := quadtree_refine_succ_inv hs h
        have e0 := ih _ _ (child_comp_redistribute q 0) h0
        have e1 := ih _ _ (child_comp_redistribute q 1) h1
        have e2 := ih _ _ (child_comp_redistribute q 2) h2
        have e3 := ih _ _ (child_comp_redistribute q 3) h3
        have etot := totalSize_redistribute q
        rw [totalSize] at etot
        simp only [comp_zero, comp_one, comp_two, comp_three] at e0 e1 e2 e3
        rw [leafSizeSum_node, e0, e1, e2, e3]
        omega
      · rw [quadtree_refine_stop _ hs] at h
        injection h with h
        subst h
        exact leafSizeSum_of_child_none hc

/-- Leaf bound, inductive core: after a terminating refinement of a leaf
node, every leaf of the result is at or below the threshold. -/
theorem refine_bound (fuel : ℕ) :
    ∀ q q' l : quadtree, q.child = none →
      quadtree_refine fuel q = some q' →
      l ∈ quadtree_apply_leaves q' → l.size ≤ 100 := by
  induction fuel with
  | zero =>
      intro q q' l hc h hl
      have hs : ¬ 100 < q.size := by
        intro hs
        rw [quadtree_refine_zero hs] at h
        cases h
      rw [quadtree_refine_stop 0 hs] at h
      injection h with h
      subst h
      rw [apply_leaves_of_child_none hc, List.mem_singleton] at hl
      subst hl
      omega
  | succ fuel ih =>
      intro q q' l hc h hl
      by_cases hs : 100 < q.size
      · obtain ⟨d0, d1, d2, d3, h0, h1, h2, h3, rfl⟩ := quadtree_refine_succ_inv hs h
        rw [apply_leaves_node] at hl
        rcases List.mem_append.1 hl with hl' | hl3
        · rcases List.mem_append.1 hl' with hl'' | hl2
          · rcases List.mem_append.1 hl'' with hl0 | hl1
            · exact ih _ _ _ (child_comp_redistribute q 0) h0 hl0
            · exact ih _ _ _ (child_comp_redistribute q 1) h1 hl1
          · exact ih _ _ _ (child_comp_redistribute q 2) h2 hl2
        · exact ih _ _ _ (child_comp_redistribute q 3) h3 hl3
      · rw [quadtree_refine_stop _ hs] at h
        injection h with h
        subst h
        rw [apply_leaves_of_child_none hc, List.mem_singleton] at hl
        subst hl
        omega

theorem Exclusive_of_child_none {q : quadtree} (hc : q.child = none) :
    Exclusive q := by
  rcases q with ⟨x, y, w, h, c, ps⟩
  rw [quadtree.child_mk] at hc
  subst hc
  trivial

theorem Exclusive_node (x y w h ps c0 c1 c2 c3) :
    Exclusive (.mk x y w h (some (c0, c1, c2, c3)) ps) ↔
      ps = [] ∧ Exclusive c0 ∧ Exclusive c1 ∧ Exclusive c2 ∧ Exclusive c3 :=
  Iff.rfl

/-- Exclusivity, inductive core: a terminating refinement of a leaf node
yields a tree in which every internal node has an empty buffer. -/
theorem refine_exclusive (fuel : ℕ) :
    ∀ q q' : quadtree, q.child = none →
      quadtree_refine fuel q = some q' → Exclusive q' := by
  induction fuel with
  | zero =>
      intro q q' hc h
      have hs : ¬ 100 < q.size := by
        intro hs
        rw [quadtree_refine_zero hs] at h
        cases h
      rw [quadtree_refine_stop 0 hs] at h
      injection h with h
      subst h
      exact Exclusive_of_child_none hc
  | succ fuel ih =>
      intro q q' hc h
      by_cases hs : 100 < q.size
      · obtain ⟨d0, d1, d2, d3, h0, h1, h2, h3, rfl⟩ := quadtree_refine_succ_inv hs h
        exact (Exclusive_node _ _ _ _ _ _ _ _ _).2
          ⟨rfl, ih _ _ (child_comp_redistribute q 0) h0,
            ih _ _ (child_comp_redistribute q 1) h1,
            ih _ _ (child_comp_redistribute q 2) h2,
            ih _ _ (child_comp_redistribute q 3) h3⟩
      · rw [quadtree_refine_stop _ hs] at h
        injection h with h
        subst h
        exact Exclusive_of_child_none hc

theorem inBox_congr {a b : quadtree} (hx : a.x = b.x) (hy : a.y = b.y)
    (hw : a.w = b.w) (hh : a.h = b.h) (p : double2) : inBox a p ↔ inBox b p := by
  rw [inBox, inBox, hx, hy, hw, hh]

/-- Geometry of a refined child: refinement and redistribution change only
buffers, so child `k` of the result has the shape given to it by
`initChild`. -/
theorem refine_child_geom {q : quadtree} {fuel k : ℕ} {d : quadtree}
    (hd : quadtree_refine fuel (comp (redistribute q) k) = some d) :
    d.x = (comp (initChildren q) k).x ∧ d.y = (comp (initChildren q) k).y ∧
      d.w = (comp (initChildren q) k).w ∧ d.h = (comp (initChildren q) k).h := by
  obtain ⟨hx, hy, hw, hh⟩ := refine_geom hd
  have hs := shape_comp_redistribute q k
  refine ⟨hx.trans ?_, hy.trans ?_, hw.trans ?_, hh.trans ?_⟩
  · exact congrArg (fun t => t.1) hs
  · exact congrArg (fun t => t.2.1) hs
  · exact congrArg (fun t => t.2.2.1) hs
  · exact congrArg (fun t => t.2.2.2.1) hs

theorem inBox_c00 (q : quadtree) (p : double2) :
    inBox (initChild q 0 0) p ↔
      (q.x - q.w / 2 ≤ p.x ∧ p.x < q.x ∧ q.y - q.h / 2 ≤ p.y ∧ p.y < q.y) := by
  simp only [inBox, initChild, quadtree.x_mk, quadtree.y_mk, quadtree.w_mk,
    quadtree.h_mk]
  push_cast
  constructor <;> rintro ⟨h1, h2, h3, h4⟩ <;>
    exact ⟨by linarith, by linarith, by linarith, by linarith⟩

theorem inBox_c10 (q : quadtree) (p : double2) :
    inBox (initChild q 1 0) p ↔
      (q.x ≤ p.x ∧ p.x < q.x + q.w / 2 ∧ q.y - q.h / 2 ≤ p.y ∧ p.y < q.y) := by
  simp only [inBox, initChild, quadtree.x_mk, quadtree.y_mk, quadtree.w_mk,
    quadtree.h_mk]
  push_cast
  constructor <;> rintro ⟨h1, h2, h3, h4⟩ <;>
    exact ⟨by linarith, by linarith, by linarith, by linarith⟩

theorem inBox_c01 (q : quadtree) (p : double2) :
    inBox (initChild q 0 1) p ↔
      (q.x - q.w / 2 ≤ p.x ∧ p.x < q.x ∧ q.y ≤ p.y ∧ p.y < q.y + q.h / 2) := by
  simp only [inBox, initChild, quadtree.x_mk, quadtree.y_mk, quadtree.w_mk,
    quadtree.h_mk]
  push_cast
  constructor <;> rintro ⟨h1, h2, h3, h4⟩ <;>
    exact ⟨by linarith, by linarith, by linarith, by linarith⟩

theorem inBox_c11 (q : quadtree) (p : double2) :
    inBox (initChild q 1 1) p ↔
      (q.x ≤ p.x ∧ p.x < q.x + q.w / 2 ∧ q.y ≤ p.y ∧ p.y < q.y + q.h / 2) := by
  simp only [inBox, initChild, quadtree.x_mk, quadtree.y_mk, quadtree.w_mk,
    quadtree.h_mk]
  push_cast
  constructor <;> rintro ⟨h1, h2, h3, h4⟩ <;>
    exact ⟨by linarith, by linarith, by linarith, by linarith⟩

theorem foldl_add_child (ps : List double2) (q : quadtree) :
    (ps.foldl quadtree_add q).child = q.child := by
  induction ps generalizing q with
  | nil => rfl
  | cons p ps ih => rw [List.foldl_cons, ih, quadtree_add_child]

theorem foldl_add_size (ps : List double2) (q : quadtree) :
    (ps.foldl quadtree_add q).size = q.size + ps.length := by
  induction ps generalizing q with
  | nil => rfl
  | cons p ps ih =>
      rw [List.foldl_cons, ih, quadtree_add_size, List.length_cons]
      omega

theorem initChildren_points_nil (q : quadtree) :
    ∀ k < 4, (comp (initChildren q) k).points = [] := by
  intro k hk
  interval_cases k <;> rfl

/-- C1 (partition conservation): if `quadtree_refine` terminates on a leaf
node, the leaf point counts enumerated by `quadtree_apply_leaves` over the
resulting subtree sum to exactly the number of points the node held before
refinement: no point is lost or duplicated by redistribution. -/
theorem C1_partition_conservation (fuel : ℕ) (q q' : quadtree)
    (hleaf : q.child = none) (hterm : quadtree_refine fuel q = some q') :
    ((quadtree_apply_leaves q').map quadtree.size).sum = q.size :=
  refine_conserve fuel q q' hleaf hterm

/-- Witness for C1 at a concrete 3-point leaf. -/
theorem C1_partition_conservation_witness :
    qW1.child = none ∧ quadtree_refine 0 qW1 = some qW1 ∧
      ((quadtree_apply_leaves qW1).map quadtree.size).sum = qW1.size :=
  ⟨rfl, quadtree_refine_stop 0 (by norm_num [qW1]),
    C1_partition_conservation 0 qW1 qW1 rfl (quadtree_refine_stop 0 (by norm_num [qW1]))⟩

/-- C2 (nontermination on coincident points): on a node whose buffer holds
more than `THRESH*N*N` bit-identical points, every subdivision sends the
whole buffer to the single child `quadIndex q p` (whose count then equals
the parent's, the other three children staying empty), so the recursion
never bottoms out: `quadtree_refine` returns `none` for every amount of
fuel — there is no maximum-depth guard. -/
theorem C2_nontermination (q : quadtree) (p : double2)
    (hs : 100 < q.size) (hall : ∀ x ∈ q.points, x = p) :
    (comp (redistribute q) (quadIndex q p)).size = q.size ∧
      (∀ k < 4, k ≠ quadIndex q p → (comp (redistribute q) k).size = 0) ∧
      (∀ fuel, quadtree_refine fuel q = none) := by
  have hredis : redistribute q = q.points.foldl (sortPoint q) (initChildren q) := rfl
  have hred := comp_foldl_allsame q p q.points (initChildren q) hall
  rw [← hredis] at hred
  refine ⟨?_, ?_, fun fuel => refine_allsame_none fuel q p hs hall⟩
  · rw [quadtree.size, hred.2, addMany,
      quadtree.points_mk, initChildren_points_nil q _ (quadIndex_lt_four q p)]
    simp [quadtree.size]
  · intro k hk hne
    rw [quadtree.size, hred.1 k hk hne, initChildren_points_nil q k hk]
    rfl

/-- Witness for C2: the concrete 101-coincident-point leaf `qBad`. -/
theorem C2_nontermination_witness :
    100 < qBad.size ∧ (∀ fuel, quadtree_refine fuel qBad = none) :=
  ⟨by norm_num [qBad],
    (C2_nontermination qBad pBad (by norm_num [qBad])
      (fun x hx => List.eq_of_mem_replicate
        (by rw [qBad, quadtree.points_mk] at hx; exact hx))).2.2⟩

/-- C3 (geometric tiling): whenever `quadtree_refine` subdivides a node, the
result carries exactly 4 children, each of half the parent's width and
height, child `j*2+i` centered at
`(q.x + (2i-1)·q.w/4, q.y + (2j-1)·q.h/4)`; consequently the children's
(half-open) boxes are pairwise non-overlapping and their union is the
parent's box. -/
theorem C3_geometric_tiling (fuel : ℕ) (q q' : quadtree)
    (hs : 100 < q.size) (hterm : quadtree_refine fuel q = some q') :
    ∃ d0 d1 d2 d3 : quadtree, q'.child = some (d0, d1, d2, d3) ∧
      (d0.w = q.w / 2 ∧ d0.h = q.h / 2 ∧
        d0.x = q.x + (2 * 0 - 1) * q.w / 4 ∧ d0.y = q.y + (2 * 0 - 1) * q.h / 4) ∧
      (d1.w = q.w / 2 ∧ d1.h = q.h / 2 ∧
        d1.x = q.x + (2 * 1 - 1) * q.w / 4 ∧ d1.y = q.y + (2 * 0 - 1) * q.h / 4) ∧
      (d2.w = q.w / 2 ∧ d2.h = q.h / 2 ∧
        d2.x = q.x + (2 * 0 - 1) * q.w / 4 ∧ d2.y = q.y + (2 * 1 - 1) * q.h / 4) ∧
      (d3.w = q.w / 2 ∧ d3.h = q.h / 2 ∧
        d3.x = q.x + (2 * 1 - 1) * q.w / 4 ∧ d3.y = q.y + (2 * 1 - 1) * q.h / 4) ∧
      (∀ p, ¬(inBox d0 p ∧ inBox d1 p)) ∧ (∀ p, ¬(inBox d0 p ∧ inBox d2 p)) ∧
      (∀ p, ¬(inBox d0 p ∧ inBox d3 p)) ∧ (∀ p, ¬(inBox d1 p ∧ inBox d2 p)) ∧
      (∀ p, ¬(inBox d1 p ∧ inBox d3 p)) ∧ (∀ p, ¬(inBox d2 p ∧ inBox d3 p)) ∧
      (∀ p, inBox q p ↔ (inBox d0 p ∨ inBox d1 p ∨ inBox d2 p ∨ inBox d3 p)) := by
  cases fuel with
  | zero => rw [quadtree_refine_zero hs] at hterm; cases hterm
  | succ fuel =>
      obtain ⟨d0, d1, d2, d3, h0, h1, h2, h3, rfl⟩ := quadtree_refine_succ_inv hs hterm
      obtain ⟨g0x, g0y, g0w, g0h⟩ := @refine_child_geom q fuel 0 d0 h0
      obtain ⟨g1x, g1y, g1w, g1h⟩ := @refine_child_geom q fuel 1 d1 h1
      obtain ⟨g2x, g2y, g2w, g2h⟩ := @refine_child_geom q fuel 2 d2 h2
      obtain ⟨g3x, g3y, g3w, g3h⟩ := @refine_child_geom q fuel 3 d3 h3
      have j0 : ∀ p, inBox d0 p ↔
          (q.x - q.w / 2 ≤ p.x ∧ p.x < q.x ∧ q.y - q.h / 2 ≤ p.y ∧ p.y < q.y) :=
        fun p => (inBox_congr g0x g0y g0w g0h p).trans (inBox_c00 q p)
      have j1 : ∀ p, inBox d1 p ↔
          (q.x ≤ p.x ∧ p.x < q.x + q.w / 2 ∧ q.y - q.h / 2 ≤ p.y ∧ p.y < q.y) :=
        fun p => (inBox_congr g1x g1y g1w g1h p).trans (inBox_c10 q p)
      have j2 : ∀ p, inBox d2 p ↔
          (q.x - q.w / 2 ≤ p.x ∧ p.x < q.x ∧ q.y ≤ p.y ∧ p.y < q.y + q.h / 2) :=
        fun p => (inBox_congr g2x g2y g2w g2h p).trans (inBox_c01 q p)
      have j3 : ∀ p, inBox d3 p ↔
          (q.x ≤ p.x ∧ p.x < q.x + q.w / 2 ∧ q.y ≤ p.y ∧ p.y < q.y + q.h / 2) :=
        fun p => (inBox_congr g3x g3y g3w g3h p).trans (inBox_c11 q p)
      simp only [comp_zero, comp_one, comp_two, comp_three, initChildren, initChild,
        quadtree.x_mk, quadtree.y_mk, quadtree.w_mk, quadtree.h_mk]
          at g0x g0y g0w g0h g1x g1y g1w g1h g2x g2y g2w g2h g3x g3y g3w g3h
      push_cast at g0x g0y g1x g1y g2x g2y g3x g3y
      refine ⟨d0, d1, d2, d3, rfl,
        ⟨by rw [g0w]; ring, by rw [g0h]; ring, by rw [g0x]; ring, by rw [g0y]; ring⟩,
        ⟨by rw [g1w]; ring, by rw [g1h]; ring, by rw [g1x]; ring, by rw [g1y]; ring⟩,
        ⟨by rw [g2w]; ring, by rw [g2h]; ring, by rw [g2x]; ring, by rw [g2y]; ring⟩,
        ⟨by rw [g3w]; ring, by rw [g3h]; ring, by rw [g3x]; ring, by rw [g3y]; ring⟩,
        ?_, ?_, ?_, ?_, ?_, ?_, ?_⟩
      · intro p hp
        rw [j0 p, j1 p] at hp
        obtain ⟨⟨-, a2, -, -⟩, ⟨b1, -, -, -⟩⟩ := hp
        linarith
      · intro p hp
        rw [j0 p, j2 p] at hp
        obtain ⟨⟨-, -, -, a4⟩, ⟨-, -, b3, -⟩⟩ := hp
        linarith
      · intro p hp
        rw [j0 p, j3 p] at hp
        obtain ⟨⟨-, a2, -, -⟩, ⟨b1, -, -, -⟩⟩ := hp
        linarith
      · intro p hp
        rw [j1 p, j2 p] at hp
        obtain ⟨⟨a1, -, -, -⟩, ⟨-, b2, -, -⟩⟩ := hp
        linarith
      · intro p hp
        rw [j1 p, j3 p] at hp
        obtain ⟨⟨-, -, -, a4⟩, ⟨-, -, b3, -⟩⟩ := hp
        linarith
      · intro p hp
        rw [j2 p, j3 p] at hp
        obtain ⟨⟨-, a2, -, -⟩, ⟨b1, -, -, -⟩⟩ := hp
        linarith
      · intro p
        rw [j0 p, j1 p, j2 p, j3 p, inBox]
        constructor
        · rintro ⟨hx1, hx2, hy1, hy2⟩
          rcases lt_or_le p.x q.x with hx | hx <;> rcases lt_or_le p.y q.y with hy | hy
          · exact Or.inl ⟨hx1, hx, hy1, hy⟩
          · exact Or.inr (Or.inr (Or.inl ⟨hx1, hx, hy, hy2⟩))
          · exact Or.inr (Or.inl ⟨hx, hx2, hy1, hy⟩)
          · exact Or.inr (Or.inr (Or.inr ⟨hx, hx2, hy, hy2⟩))
        · rintro (⟨a, b, c, d⟩ | ⟨a, b, c, d⟩ | ⟨a, b, c, d⟩ | ⟨a, b, c, d⟩) <;>
            exact ⟨by linarith, by linarith, by linarith, by linarith⟩

theorem Quad.ext4 {a b : Quad} (h0 : a.1 = b.1) (h1 : a.2.1 = b.2.1)
    (h2 : a.2.2.1 = b.2.2.1) (h3 : a.2.2.2 = b.2.2.2) : a = b := by
  obtain ⟨a0, a1, a2, a3⟩ := a
  obtain ⟨b0, b1, b2, b3⟩ := b
  simp_all

theorem quadIndex_qC3_pA : quadIndex qC3 pA = 0 := by
  norm_num [quadIndex, qC3, pA]

theorem quadIndex_qC3_pB : quadIndex qC3 pB = 3 := by
  norm_num [quadIndex, qC3, pB]

theorem redistribute_qC3 : redistribute qC3 = (cA, cB, cC, cD) := by
  have hA : ∀ x ∈ List.replicate 51 pA, x = pA :=
    fun x hx => List.eq_of_mem_replicate hx
  have hB : ∀ x ∈ List.replicate 50 pB, x = pB :=
    fun x hx => List.eq_of_mem_replicate hx
  have h51 := comp_foldl_allsame qC3 pA (List.replicate 51 pA) (initChildren qC3) hA
  rw [quadIndex_qC3_pA] at h51
  have h50 := comp_foldl_allsame qC3 pB (List.replicate 50 pB)
    ((List.replicate 51 pA).foldl (sortPoint qC3) (initChildren qC3)) hB
  rw [quadIndex_qC3_pB] at h50
  have hpts : qC3.points = List.replicate 51 pA ++ List.replicate 50 pB := rfl
  have hfold : redistribute qC3 = (List.replicate 50 pB).foldl (sortPoint qC3)
      ((List.replicate 51 pA).foldl (sortPoint qC3) (initChildren qC3)) := by
    rw [redistribute, hpts, List.foldl_append]
  apply Quad.ext4
  · show comp (redistribute qC3) 0 = cA
    rw [hfold, h50.1 0 (by norm_num) (by norm_num)]
    exact h51.2
  · show comp (redistribute qC3) 1 = cB
    rw [hfold, h50.1 1 (by norm_num) (by norm_num),
      h51.1 1 (by norm_num) (by norm_num)]
    rfl
  · show comp (redistribute qC3) 2 = cC
    rw [hfold, h50.1 2 (by norm_num) (by norm_num),
      h51.1 2 (by norm_num) (by norm_num)]
    rfl
  · show comp (redistribute qC3) 3 = cD
    rw [hfold, h50.2, h51.1 3 (by norm_num) (by norm_num)]
    rfl

theorem cA_size : cA.size = 51 := by
  simp [cA, addMany, initChild, quadtree.size]

theorem cD_size : cD.size = 50 := by
  simp [cD, addMany, initChild, quadtree.size]

theorem refineC3 : quadtree_refine 1 qC3 = some qC3r := by
  have hs : 100 < qC3.size := by norm_num [qC3]
  have h0 : quadtree_refine 0 (redistribute qC3).1 = some cA := by
    rw [redistribute_qC3]
    exact quadtree_refine_stop 0 (by norm_num [cA_size])
  have h1 : quadtree_refine 0 (redistribute qC3).2.1 = some cB := by
    rw [redistribute_qC3]
    exact quadtree_refine_stop 0 (by norm_num [quadtree.size, cB, initChild])
  have h2 : quadtree_refine 0 (redistribute qC3).2.2.1 = some cC := by
    rw [redistribute_qC3]
    exact quadtree_refine_stop 0 (by norm_num [quadtree.size, cC, initChild])
  have h3 : quadtree_refine 0 (redistribute qC3).2.2.2 = some cD := by
    rw [redistribute_qC3]
    exact quadtree_refine_stop 0 (by norm_num [cD_size])
  exact quadtree_refine_succ_eq hs h0 h1 h2 h3

/-- Witness for C3: refining the concrete 101-point leaf `qC3` subdivides it
into 4 children whose boxes tile its box. -/
theorem C3_geometric_tiling_witness :
    100 < qC3.size ∧
      ∃ d0 d1 d2 d3 : quadtree, qC3r.child = some (d0, d1, d2, d3) ∧
        (∀ p, ¬(inBox d0 p ∧ inBox d3 p)) ∧
        (∀ p, inBox qC3 p ↔ (inBox d0 p ∨ inBox d1 p ∨ inBox d2 p ∨ inBox d3 p)) := by
  refine ⟨by norm_num [qC3], ?_⟩
  obtain ⟨d0, d1, d2, d3, hc, -, -, -, -, -, -, h03, -, -, -, hu⟩ :=
    C3_geometric_tiling 1 qC3 qC3r (by norm_num [qC3]) refineC3
  exact ⟨d0, d1, d2, d3, hc, h03, hu⟩

/-- C4 (deterministic quadrant assignment): one redistribution step inserts
the point into exactly the child `j*2+i` with `i = (p.x > q.x)`,
`j = (p.y > q.y)`, leaving the other three children untouched; ties at
exactly `q.x` (resp. `q.y`) zero out that axis's index bit, and the index
is a pure function of the two comparison outcomes. -/
theorem C4_quadrant_assignment (q : quadtree) (cs : Quad) (p : double2) :
    quadIndex q p = (if q.y < p.y then 1 else 0) * 2 + (if q.x < p.x then 1 else 0) ∧
      comp (sortPoint q cs p) (quadIndex q p) =
        quadtree_add (comp cs (quadIndex q p)) p ∧
      (∀ k < 4, k ≠ quadIndex q p → comp (sortPoint q cs p) k = comp cs k) ∧
      (p.x = q.x → quadIndex q p = (if q.y < p.y then 1 else 0) * 2) ∧
      (p.y = q.y → quadIndex q p = (if q.x < p.x then 1 else 0)) ∧
      (∀ p' : double2, ((q.x < p.x) ↔ (q.x < p'.x)) → ((q.y < p.y) ↔ (q.y < p'.y)) →
        quadIndex q p = quadIndex q p') := by
  refine ⟨rfl, comp_addAt_self cs (quadIndex q p) p,
    fun k hk hne => comp_addAt_other cs p (quadIndex_lt_four q p) hk hne, ?_, ?_, ?_⟩
  · intro hp
    rw [quadIndex, hp]
    simp
  · intro hp
    rw [quadIndex, hp]
    simp
  · intro p' h1 h2
    rw [quadIndex, quadIndex, if_congr h2 rfl rfl, if_congr h1 rfl rfl]

/-- Witness for C4 at a concrete tie on the x axis: the point lands in
child 2 (quadrant (0,1)). -/
theorem C4_quadrant_assignment_witness :
    quadIndex root11 pC4 = 2 ∧
      comp (sortPoint root11 (initChildren root11) pC4) (quadIndex root11 pC4) =
        quadtree_add (comp (initChildren root11) (quadIndex root11 pC4)) pC4 :=
  ⟨by norm_num [quadIndex, root11, pC4],
    (C4_quadrant_assignment root11 (initChildren root11) pC4).2.1⟩

/-- C5 (leaf termination bound): when `quadtree_refine` terminates on a
leaf node, every leaf subsequently enumerated by `quadtree_apply_leaves`
holds at most `THRESH*N*N = 100` points. -/
theorem C5_leaf_bound (fuel : ℕ) (q q' l : quadtree)
    (hleaf : q.child = none) (hterm : quadtree_refine fuel q = some q')
    (hl : l ∈ quadtree_apply_leaves q') :
    (l.size : ℚ) ≤ THRESH * (N : ℚ) * (N : ℚ) ∧ l.size ≤ 100 := by
  have h := refine_bound fuel q q' l hleaf hterm hl
  refine ⟨?_, h⟩
  have e : THRESH * (N : ℚ) * (N : ℚ) = ((100 : ℕ) : ℚ) := by norm_num [THRESH, N]
  rw [e, Nat.cast_le]
  exact h

/-- Witness for C5 at a concrete 1-point leaf. -/
theorem C5_leaf_bound_witness :
    qW5.child = none ∧ quadtree_refine 0 qW5 = some qW5 ∧
      qW5 ∈ quadtree_apply_leaves qW5 ∧ qW5.size ≤ 100 :=
  ⟨rfl, quadtree_refine_stop 0 (by norm_num [qW5]),
    List.mem_singleton.mpr rfl,
    (C5_leaf_bound 0 qW5 qW5 qW5 rfl (quadtree_refine_stop 0 (by norm_num [qW5]))
      (List.mem_singleton.mpr rfl)).2⟩

/-- C6 (refinement below threshold is a no-op): refining a leaf whose point
count is at most `THRESH*N*N = 100` returns the node literally unchanged —
same center, extent, buffer, and still no children. -/
theorem C6_below_threshold_noop (fuel : ℕ) (q : quadtree)
    (_hleaf : q.child = none) (hsize : q.size ≤ 100) :
    quadtree_refine fuel q = some q :=
  quadtree_refine_stop fuel (by omega)

/-- Witness for C6: a root holding 50 inserted points stays a single
unchanged leaf with count 50. -/
theorem C6_below_threshold_noop_witness :
    q50.child = none ∧ q50.size = 50 ∧ quadtree_refine 7 q50 = some q50 :=
  ⟨by rw [q50, foldl_add_child]; rfl,
    by rw [q50, foldl_add_size]; rfl,
    C6_below_threshold_noop 7 q50 (by rw [q50, foldl_add_child]; rfl)
      (by rw [q50, foldl_add_size]; norm_num [root11])⟩

/-- C8 (exclusivity invariant): a freshly constructed or inserted-into leaf
satisfies Invariant A, insertion keeps a leaf a leaf, and a terminating
refinement of a leaf produces a tree in which every reachable node is
either a leaf holding its buffer or an internal node with an empty buffer
(its own buffer having been discarded after redistribution). -/
theorem C8_exclusivity (fuel : ℕ) (q q' : quadtree) (p : double2)
    (hleaf : q.child = none) (hterm : quadtree_refine fuel q = some q') :
    Exclusive q ∧ (quadtree_add q p).child = none ∧
      Exclusive (quadtree_add q p) ∧ Exclusive q' :=
  ⟨Exclusive_of_child_none hleaf,
    (quadtree_add_child q p).trans hleaf,
    Exclusive_of_child_none ((quadtree_add_child q p).trans hleaf),
    refine_exclusive fuel q q' hleaf hterm⟩

theorem subtreeAt_cons0 (x y w h ps c0 c1 c2 c3 r) :
    subtreeAt (.mk x y w h (some (c0, c1, c2, c3)) ps) (0 :: r) = subtreeAt c0 r := rfl

theorem subtreeAt_cons1 (x y w h ps c0 c1 c2 c3 r) :
    subtreeAt (.mk x y w h (some (c0, c1, c2, c3)) ps) (1 :: r) = subtreeAt c1 r := rfl

theorem subtreeAt_cons2 (x y w h ps c0 c1 c2 c3 r) :
    subtreeAt (.mk x y w h (some (c0, c1, c2, c3)) ps) (2 :: r) = subtreeAt c2 r := rfl

theorem subtreeAt_cons3 (x y w h ps c0 c1 c2 c3 r) :
    subtreeAt (.mk x y w h (some (c0, c1, c2, c3)) ps) (3 :: r) = subtreeAt c3 r := rfl

/-- The traversal and the path enumeration agree: following the `k`-th leaf
path lands on the `k`-th visited leaf. -/
theorem leafPaths_map_subtreeAt :
    ∀ q : quadtree,
      (leafPaths q).map (subtreeAt q) = (quadtree_apply_leaves q).map some := by
  refine quadtree.my_ind _ ?_ ?_
  · intro x y w h ps
    rfl
  · intro x y w h ps c0 c1 c2 c3 ih0 ih1 ih2 ih3
    simp only [leafPaths, apply_leaves_node, List.map_append, List.map_map]
    have e0 : (leafPaths c0).map
        (subtreeAt (quadtree.mk x y w h (some (c0, c1, c2, c3)) ps) ∘ (0 :: ·)) =
        (leafPaths c0).map (subtreeAt c0) := List.map_congr_left (fun a _ => rfl)
    have e1 : (leafPaths c1).map
        (subtreeAt (quadtree.mk x y w h (some (c0, c1, c2, c3)) ps) ∘ (1 :: ·)) =
        (leafPaths c1).map (subtreeAt c1) := List.map_congr_left (fun a _ => rfl)
    have e2 : (leafPaths c2).map
        (subtreeAt (quadtree.mk x y w h (some (c0, c1, c2, c3)) ps) ∘ (2 :: ·)) =
        (leafPaths c2).map (subtreeAt c2) := List.map_congr_left (fun a _ => rfl)
    have e3 : (leafPaths c3).map
        (subtreeAt (quadtree.mk x y w h (some (c0, c1, c2, c3)) ps) ∘ (3 :: ·)) =
        (leafPaths c3).map (subtreeAt c3) := List.map_congr_left (fun a _ => rfl)
    rw [e0, e1, e2, e3, ih0, ih1, ih2, ih3]

/-- The enumerated paths are exactly the paths to leaves of the tree. -/
theorem leafPaths_mem :
    ∀ q : quadtree, ∀ path,
      (path ∈ leafPaths q ↔ ∃ l, subtreeAt q path = some l ∧ l.child = none) := by
  refine quadtree.my_ind _ ?_ ?_
  · intro x y w h ps path
    cases path with
    | nil => simp [leafPaths, subtreeAt]
    | cons k rest => simp [leafPaths, subtreeAt]
  · intro x y w h ps c0 c1 c2 c3 ih0 ih1 ih2 ih3 path
    cases path with
    | nil => simp [leafPaths, subtreeAt]
    | cons k rest =>
        rcases k with _ | _ | _ | _ | k
        · simpa [leafPaths, subtreeAt] using ih0 rest
        · simpa [leafPaths, subtreeAt] using ih1 rest
        · simpa [leafPaths, subtreeAt] using ih2 rest
        · simpa [leafPaths, subtreeAt] using ih3 rest
        · simp [leafPaths, subtreeAt]

theorem lex_irrefl (l : List ℕ) : ¬ List.Lex (· < ·) l l := by
  induction l with
  | nil => intro h; cases h
  | cons a l ih =>
      intro h
      cases h with
      | cons h' => exact ih h'
      | rel h' => exact lt_irrefl a h'

/-- The enumerated paths are strictly increasing in lexicographic order on
child indices: children are visited in index order 0, 1, 2, 3, and no leaf
is visited twice. -/
theorem leafPaths_pairwise :
    ∀ q : quadtree, (leafPaths q).Pairwise (fun a b => List.Lex (· < ·) a b) := by
  have cross : ∀ i j : ℕ, i < j → ∀ li lj : List (List ℕ),
      ∀ a ∈ li.map (i :: ·), ∀ b ∈ lj.map (j :: ·), List.Lex (· < ·) a b := by
    intro i j hij li lj a ha b hb
    obtain ⟨a', -, rfl⟩ := List.mem_map.1 ha
    obtain ⟨b', -, rfl⟩ := List.mem_map.1 hb
    exact List.Lex.rel hij
  refine quadtree.my_ind _ ?_ ?_
  · intro x y w h ps
    simp [leafPaths]
  · intro x y w h ps c0 c1 c2 c3 ih0 ih1 ih2 ih3
    have m0 := ih0.map (0 :: ·) (fun _ _ h' => List.Lex.cons h')
    have m1 := ih1.map (1 :: ·) (fun _ _ h' => List.Lex.cons h')
    have m2 := ih2.map (2 :: ·) (fun _ _ h' => List.Lex.cons h')
    have m3 := ih3.map (3 :: ·) (fun _ _ h' => List.Lex.cons h')
    show ((leafPaths c0).map (0 :: ·) ++ (leafPaths c1).map (1 :: ·) ++
        (leafPaths c2).map (2 :: ·) ++ (leafPaths c3).map (3 :: ·)).Pairwise _
    refine List.pairwise_append.2 ⟨List.pairwise_append.2
      ⟨List.pairwise_append.2 ⟨m0, m1, cross 0 1 (by norm_num) _ _⟩, m2, ?_⟩, m3, ?_⟩
    · intro a ha b hb
      rcases List.mem_append.1 ha with h0 | h1
      · exact cross 0 2 (by norm_num) _ _ a h0 b hb
      · exact cross 1 2 (by norm_num) _ _ a h1 b hb
    · intro a ha b hb
      rcases List.mem_append.1 ha with h01 | h2
      · rcases List.mem_append.1 h01 with h0 | h1
        · exact cross 0 3 (by norm_num) _ _ a h0 b hb
        · exact cross 1 3 (by norm_num) _ _ a h1 b hb
      · exact cross 2 3 (by norm_num) _ _ a h2 b hb

/-- C7 (traversal order and exactly-once visiting): the visited-leaf list of
`quadtree_apply_leaves` is the image, path by path in order, of the leaf
paths of the tree; the leaf paths are exactly the paths to leaves (every
leaf visited, nothing else), and they are strictly increasing in
lexicographic order on child indices (children visited in order 0,1,2,3,
each leaf exactly once — the path list has no duplicates).  The embedding
is a pure function, so two calls on the same tree return the same list. -/
theorem C7_traversal_order (q : quadtree) :
    ((leafPaths q).map (subtreeAt q) = (quadtree_apply_leaves q).map some) ∧
      (∀ path, path ∈ leafPaths q ↔ ∃ l, subtreeAt q path = some l ∧ l.child = none) ∧
      (leafPaths q).Pairwise (fun a b => List.Lex (· < ·) a b) ∧
      (leafPaths q).Nodup := by
  refine ⟨leafPaths_map_subtreeAt q, leafPaths_mem q, leafPaths_pairwise q,
    List.Pairwise.imp ?_ (leafPaths_pairwise q)⟩
  intro a b h' heq
  exact lex_irrefl a (heq ▸ h')

/-- Witness for C7 at the concrete refined tree `qC3r`: its four leaves are
visited in child order 0, 1, 2, 3. -/
theorem C7_traversal_order_witness :
    leafPaths qC3r = [[0], [1], [2], [3]] ∧
      (leafPaths qC3r).map (subtreeAt qC3r) = (quadtree_apply_leaves qC3r).map some :=
  ⟨rfl, (C7_traversal_order qC3r).1⟩

/-- C9 (append contract): on any buffer state reachable by appends (as
recorded by the capacity invariant `pstore_inv`), `quadtree_add`'s storage
step appends a copy of the point at the end, increments the count by
exactly one, leaves every previously stored point at its position, and
grows the capacity by the chunk size `N` exactly when the buffer was full
before the append (count a multiple of `N`) — not on every append; the
capacity invariant is preserved. -/
theorem C9_append_contract (s : PointStore) (p : double2) (hinv : pstore_inv s) :
    (pstore_add s p).points = s.points ++ [p] ∧
      (pstore_add s p).points.length = s.points.length + 1 ∧
      (∀ i, i < s.points.length → (pstore_add s p).points[i]? = s.points[i]?) ∧
      ((pstore_add s p).cap = s.cap + N ↔ s.points.length % N = 0) ∧
      pstore_inv (pstore_add s p) := by
  rw [pstore_inv] at hinv
  by_cases hfull : s.points.length % N = 0
  · rw [pstore_add, if_pos hfull]
    refine ⟨rfl, by simp, fun i hi => ?_, ?_, ?_⟩
    · show (s.points ++ [p])[i]? = s.points[i]?
      rw [List.getElem?_append, if_pos hi]
    · show s.points.length + N = s.cap + N ↔ s.points.length % N = 0
      simp only [N] at hinv hfull ⊢
      omega
    · show s.points.length + N = N * (((s.points ++ [p]).length + (N - 1)) / N)
      simp only [N, List.length_append, List.length_singleton] at hinv hfull ⊢
      omega
  · rw [pstore_add, if_neg hfull]
    refine ⟨rfl, by simp, fun i hi => ?_, ?_, ?_⟩
    · show (s.points ++ [p])[i]? = s.points[i]?
      rw [List.getElem?_append, if_pos hi]
    · show s.cap = s.cap + N ↔ s.points.length % N = 0
      simp only [N] at hinv hfull ⊢
      omega
    · show s.cap = N * (((s.points ++ [p]).length + (N - 1)) / N)
      simp only [N, List.length_append, List.length_singleton] at hinv hfull ⊢
      omega

/-- Witness for C9 at a concrete 3-point store (not full: no growth). -/
theorem C9_append_contract_witness :
    pstore_inv pstoreEmpty ∧ pstore_inv sW9 ∧
      (pstore_add sW9 pW9).points = sW9.points ++ [pW9] ∧
      ((pstore_add sW9 pW9).cap = sW9.cap + N ↔ sW9.points.length % N = 0) :=
  ⟨by rw [pstore_inv]; rfl, by rw [pstore_inv]; rfl,
    (C9_append_contract sW9 pW9 (by rw [pstore_inv]; rfl)).1,
    (C9_append_contract sW9 pW9 (by rw [pstore_inv]; rfl)).2.2.2.1⟩

/-- C10 (driver containment): any point surviving the driver's bounds check
(`0.5 ≤ x < WIDTH + 0.5`, `0.5 ≤ y < HEIGHT + 0.5`) is filed under root
index `j*WIDTH + i` with `i = ⌊x - 0.5⌋`, `j = ⌊y - 0.5⌋`: that index is in
range, the chosen root is centered at `(i+1, j+1)`, and its unit box
contains the point. -/
theorem C10_driver_containment (p : double2)
    (hx1 : 1/2 ≤ p.x) (hx2 : p.x < WIDTH + 1/2)
    (hy1 : 1/2 ≤ p.y) (hy2 : p.y < HEIGHT + 1/2) :
    drv_j p * WIDTH + drv_i p < WIDTH * HEIGHT ∧
      (grid_root (drv_j p * WIDTH + drv_i p)).x = (drv_i p : ℚ) + 1 ∧
      (grid_root (drv_j p * WIDTH + drv_i p)).y = (drv_j p : ℚ) + 1 ∧
      inBox (grid_root (drv_j p * WIDTH + drv_i p)) p := by
  have h0x : (0 : ℚ) ≤ p.x - 1/2 := by linarith
  have h0y : (0 : ℚ) ≤ p.y - 1/2 := by linarith
  have hflx : (0 : ℤ) ≤ ⌊p.x - 1/2⌋ := Int.floor_nonneg.mpr h0x
  have hfly : (0 : ℤ) ≤ ⌊p.y - 1/2⌋ := Int.floor_nonneg.mpr h0y
  have hcx : ((drv_i p : ℕ) : ℚ) = ((⌊p.x - 1/2⌋ : ℤ) : ℚ) := by
    rw [drv_i]
    exact_mod_cast congrArg (fun n : ℤ => (n : ℚ)) (Int.toNat_of_nonneg hflx)
  have hcy : ((drv_j p : ℕ) : ℚ) = ((⌊p.y - 1/2⌋ : ℤ) : ℚ) := by
    rw [drv_j]
    exact_mod_cast congrArg (fun n : ℤ => (n : ℚ)) (Int.toNat_of_nonneg hfly)
  have hxl : ((drv_i p : ℕ) : ℚ) ≤ p.x - 1/2 := by
    rw [hcx]
    exact Int.floor_le _
  have hxu : p.x - 1/2 < ((drv_i p : ℕ) : ℚ) + 1 := by
    rw [hcx]
    exact Int.lt_floor_add_one _
  have hyl : ((drv_j p : ℕ) : ℚ) ≤ p.y - 1/2 := by
    rw [hcy]
    exact Int.floor_le _
  have hyu : p.y - 1/2 < ((drv_j p : ℕ) : ℚ) + 1 := by
    rw [hcy]
    exact Int.lt_floor_add_one _
  have hi20 : drv_i p < 20 := by
    have : ((drv_i p : ℕ) : ℚ) < 20 := by
      have hW : ((WIDTH : ℕ) : ℚ) = 20 := by norm_num [WIDTH]
      rw [hW] at hx2
      linarith
    exact_mod_cast this
  have hj20 : drv_j p < 20 := by
    have : ((drv_j p : ℕ) : ℚ) < 20 := by
      have hH : ((HEIGHT : ℕ) : ℚ) = 20 := by norm_num [HEIGHT]
      rw [hH] at hy2
      linarith
    exact_mod_cast this
  have exi : (drv_j p * WIDTH + drv_i p) % WIDTH = drv_i p := by
    simp only [WIDTH]
    omega
  have exj : (drv_j p * WIDTH + drv_i p) / WIDTH = drv_j p := by
    simp only [WIDTH]
    omega
  refine ⟨?_, ?_, ?_, ?_⟩
  · simp only [WIDTH, HEIGHT]
    omega
  · rw [grid_root, quadtree.x_mk, exi]
  · rw [grid_root, quadtree.y_mk, exj]
  · rw [inBox, grid_root, quadtree.x_mk, quadtree.y_mk, quadtree.w_mk,
      quadtree.h_mk, exi, exj]
    refine ⟨by linarith, by linarith, by linarith, by linarith⟩

/-- Witness for C10 at the concrete in-bounds point (3.7, 5.2):
root column 3, row 4, index 83, root center (4, 5). -/
theorem C10_driver_containment_witness :
    drv_i pW10 = 3 ∧ drv_j pW10 = 4 ∧
      drv_j pW10 * WIDTH + drv_i pW10 < WIDTH * HEIGHT ∧
      inBox (grid_root (drv_j pW10 * WIDTH + drv_i pW10)) pW10 := by
  have h := C10_driver_containment pW10 (by norm_num [pW10])
    (by norm_num [pW10, WIDTH]) (by norm_num [pW10])
    (by norm_num [pW10, HEIGHT])
  refine ⟨?_, ?_, h.1, h.2.2.2⟩
  · rw [drv_i]
    norm_num [pW10]
    decide
  · rw [drv_j]
    norm_num [pW10]
    decide

/-- Witness for C8 at a concrete 1-point leaf. -/
theorem C8_exclusivity_witness :
    qW8.child = none ∧ quadtree_refine 2 qW8 = some qW8 ∧ Exclusive qW8 :=
  ⟨rfl, quadtree_refine_stop 2 (by norm_num [qW8]),
    (C8_exclusivity 2 qW8 qW8 ⟨3.2, 2.8⟩ rfl
      (quadtree_refine_stop 2 (by norm_num [qW8]))).1⟩
